import Mathlib

/-!
Shallow embedding of the `ni` crate: a compact identifier type (`Name` in
src/name.rs) that packs a short ASCII name (1–24 characters over the
37-symbol alphabet `_`, `a`–`z`, `0`–`9`, no leading underscore) into a
single nonzero base-37 integer, plus the length-prefixed binary codec from
src/bincode.rs.

Modelling conventions:
* Bytes and the `u128` accumulator are `Nat`; `u128` wrap-around is made
  explicit by reducing every arithmetic result modulo `2 ^ 128`.
* A `Name` value is its packed integer (`Nat`); the `NonZeroU128` wrapper is
  reflected by theorems showing the packed value is strictly positive.
* Rust panics (`unreachable!`) are modelled by `Option`: a `none` result
  marks a path the source declares unreachable.
-/

/-- The `Error` enum from src/name.rs. -/
inductive NError where
  | Empty
  | TooLong
  | LeadingUnderscore
  | InvalidChar
deriving DecidableEq

/-- `Error::as_str` from src/name.rs. -/
def NError.as_str : NError → String
  | .Empty => "the name is empty"
  | .TooLong => "the name is too long"
  | .LeadingUnderscore => "the name starts with `_`"
  | .InvalidChar => "the name contains an invalid char"

/-- The byte-to-digit match arms inside `Name::encode` (src/name.rs lines
72–77): `_` ↦ 0, `a..=z` ↦ 1..26, `0..=9` ↦ 27..36, anything else is the
`InvalidChar` arm, modelled as `none`. Byte values: `_` = 95, `a` = 97,
`z` = 122, `0` = 48, `9` = 57. -/
def charVal (b : Nat) : Option Nat :=
  if b = 95 then some 0
  else if 97 ≤ b ∧ b ≤ 122 then some (b - 97 + 1)
  else if 48 ≤ b ∧ b ≤ 57 then some (b - 48 + 27)
  else none

/-- The modulus of `u128` arithmetic. -/
def U128MOD : Nat := 2 ^ 128

/-- The accumulation loop of `Name::encode` (src/name.rs lines 68–86).
The source walks the slice from the last index down to the first with
`sum += u * mul; mul *= 37`; this is the same fold over the reversed byte
list, with `u128` arithmetic reduced modulo `2 ^ 128`. -/
def foldDigits : List Nat → Nat → Nat → Option Nat
  | [], _, sum => some sum
  | b :: rest, mul, sum =>
    match charVal b with
    | none => none
    | some u => foldDigits rest (mul * 37 % U128MOD) ((sum + u * mul) % U128MOD)

/-- Idealized accumulation loop with exact (unbounded) arithmetic, used to
state that the `u128` version never wraps. -/
def foldDigitsE : List Nat → Nat → Nat → Option Nat
  | [], _, sum => some sum
  | b :: rest, mul, sum =>
    match charVal b with
    | none => none
    | some u => foldDigitsE rest (mul * 37) (sum + u * mul)

/-- `Name::MAXLEN` from src/name.rs. -/
def Name.MAXLEN : Nat := 24

/-- `Name::encode` from src/name.rs lines 55–94. The slice pattern
`[b'_', ..]` is the head test: it fires exactly when the (already
known non-empty) input starts with `_` (byte 95). On success the result
is the packed accumulator value. -/
def Name.encode (s : List Nat) : Except NError Nat :=
  if s.isEmpty then .error .Empty
  else if s.length > Name.MAXLEN then .error .TooLong
  else if s.head? = some 95 then .error .LeadingUnderscore
  else
    match foldDigits s.reverse 1 0 with
    | none => .error .InvalidChar
    | some sum => .ok sum

/-- `Name::encode_char` from src/name.rs lines 102–107: `(c as u32)` is
decomposed into its four little-endian bytes; only the pattern
`[v, 0, 0, 0]` (all high bytes zero) routes to `Name::encode` on the
one-byte slice, otherwise `InvalidChar`. -/
def Name.encode_char (c : Nat) : Except NError Nat :=
  let b0 := c % 256
  let b1 := c / 256 % 256
  let b2 := c / 65536 % 256
  let b3 := c / 16777216 % 256
  if b1 = 0 ∧ b2 = 0 ∧ b3 = 0 then Name.encode [b0]
  else .error .InvalidChar

/-- The digit-to-byte match arms inside `Name::decode` (src/name.rs lines
116–121): 0 ↦ `_`, 1..26 ↦ `a..z` (`n + b'a' - 1`), 27..36 ↦ `0..9`
(`n + b'0' - 27`); the `unreachable!` arm for 37 and above is `none`. -/
def digitChar (d : Nat) : Option Nat :=
  if d = 0 then some 95
  else if 1 ≤ d ∧ d < 27 then some (d + 97 - 1)
  else if 27 ≤ d ∧ d < 37 then some (d + 48 - 27)
  else none

/-- The write-back loop of `Name::decode` (src/name.rs lines 115–129):
starting at buffer index `idx`, store the byte for `num % 37`, divide
`num` by 37, and stop when the quotient is zero or the cursor reached
index 0; otherwise move the cursor down and continue. `none` means the
`unreachable!` arm fired. -/
def decodeLoop : List Nat → Nat → Nat → Option (List Nat × Nat)
  | buf, num, 0 =>
    match digitChar (num % 37) with
    | none => none
    | some c => some (buf.set 0 c, 0)
  | buf, num, idx + 1 =>
    match digitChar (num % 37) with
    | none => none
    | some c =>
      let buf2 := buf.set (idx + 1) c
      if num / 37 = 0 then some (buf2, idx + 1)
      else decodeLoop buf2 (num / 37) idx

/-- `DecodedName` from src/name.rs: a 24-byte buffer and the final cursor. -/
structure DecodedName where
  buf : List Nat
  idx : Nat
deriving DecidableEq

/-- `Name::decode` from src/name.rs lines 111–132: run the loop on a
zeroed 24-byte buffer with the cursor at the last index. -/
def Name.decode (n : Nat) : Option DecodedName :=
  match decodeLoop (List.replicate Name.MAXLEN 0) n (Name.MAXLEN - 1) with
  | none => none
  | some (buf, idx) => some ⟨buf, idx⟩

/-- `DecodedName::as_slice` from src/name.rs lines 190–202: the bytes from
the final cursor position to the end of the buffer. -/
def DecodedName.as_slice (d : DecodedName) : List Nat := d.buf.drop d.idx

/-- `DecodedName::as_str` from src/name.rs lines 206–211: the same bytes
viewed as text. -/
def DecodedName.as_str (d : DecodedName) : String :=
  ⟨d.as_slice.map Char.ofNat⟩

/-- `u128::ilog(n, 37)` from Rust core, used by `Name::len`: the floor
base-37 logarithm computed by repeated division. The extra fuel argument
(first position) only makes the recursion structural; `n` divisions are
always more than enough. -/
def ilog37Aux : Nat → Nat → Nat
  | 0, _ => 0
  | fuel + 1, n => if n < 37 then 0 else ilog37Aux fuel (n / 37) + 1

/-- `u128::ilog(n, 37)`. -/
def ilog37 (n : Nat) : Nat := ilog37Aux n n

/-- `Name::len` from src/name.rs lines 136–138. -/
def Name.len (n : Nat) : Nat := ilog37 n + 1

/-- The naming invariants (doc comment of `Name`, src/name.rs lines 32–40):
non-empty, at most 24 bytes, no leading underscore, all bytes in the
37-symbol alphabet. -/
def validName (s : List Nat) : Prop :=
  s ≠ [] ∧ s.length ≤ Name.MAXLEN ∧ s.head? ≠ some 95 ∧ ∀ b ∈ s, (charVal b).isSome

instance (s : List Nat) : Decidable (validName s) := by
  unfold validName; infer_instance

/-- The digit value of an alphabet byte (defaulting to 0 off the alphabet);
`charVal b = some (dval b)` whenever `b` is in the alphabet. -/
def dval (b : Nat) : Nat := (charVal b).getD 0

/-- `impl Encode for Name` from src/bincode.rs lines 11–20: write
`self.len() as u8` followed by the decoded bytes. -/
def bincodeEncodeName (n : Nat) : Option (List Nat) :=
  match Name.decode n with
  | none => none
  | some d => some ((Name.len n % 256) :: d.as_slice)

/-- `impl Decode for Name` from src/bincode.rs lines 22–39: read a length
byte; `buf.get_mut(..len)` on the 24-byte buffer fails (with the `TooLong`
message) exactly when `len > 24`, before any payload byte is read; then
read `len` payload bytes and re-validate through `Name::encode`. The
`claim_container_read` call only checks the optional size limit (absent in
the standard configuration) and is a no-op here. Returns the decoded name
and the unread remainder of the input. -/
def bincodeDecodeName (data : List Nat) : Except String (Nat × List Nat) :=
  match data with
  | [] => .error "UnexpectedEnd"
  | lenByte :: rest =>
    if Name.MAXLEN < lenByte then .error NError.TooLong.as_str
    else if rest.length < lenByte then .error "UnexpectedEnd"
    else
      match Name.encode (rest.take lenByte) with
      | .error e => .error e.as_str
      | .ok n => .ok (n, rest.drop lenByte)

/-- The byte a decoded digit is written back as (0 is never hit on digits
produced by `% 37`). -/
def digitByte (d : Nat) : Nat := (digitChar d).getD 0

lemma charVal_lt_37 {b u : Nat} (h : charVal b = some u) : u < 37 := by
  simp only [charVal] at h
  split_ifs at h <;> simp_all <;> omega

lemma charVal_inj {a b u : Nat} (ha : charVal a = some u) (hb : charVal b = some u) :
    a = b := by
  simp only [charVal] at ha hb
  split_ifs at ha hb <;> simp_all <;> omega

lemma charVal_isSome_elim {b : Nat} (h : (charVal b).isSome) : charVal b = some (dval b) := by
  obtain ⟨u, hu⟩ := Option.isSome_iff_exists.mp h
  simp [dval, hu]

lemma dval_lt_37 {b : Nat} (h : (charVal b).isSome) : dval b < 37 :=
  charVal_lt_37 (charVal_isSome_elim h)

lemma charVal_lt_128 {b : Nat} (h : (charVal b).isSome) : b < 128 := by
  simp only [charVal] at h
  split_ifs at h <;> simp_all <;> omega

lemma dval_ne_zero {b : Nat} (h : (charVal b).isSome) (hb : b ≠ 95) : dval b ≠ 0 := by
  simp only [dval, charVal] at *
  split_ifs at * <;> simp_all <;> omega

lemma digitChar_dval {b : Nat} (h : (charVal b).isSome) : digitChar (dval b) = some b := by
  simp only [dval, charVal] at *
  split_ifs at * <;> simp_all [digitChar] <;> omega

lemma digitByte_dval {b : Nat} (h : (charVal b).isSome) : digitByte (dval b) = b := by
  simp [digitByte, digitChar_dval h]

lemma digitChar_isSome {d : Nat} (h : d < 37) : (digitChar d).isSome := by
  simp only [digitChar]
  split_ifs <;> simp_all <;> omega

lemma foldDigits_eq_none_iff :
    ∀ (l : List Nat) (mul sum : Nat),
      foldDigits l mul sum = none ↔ ∃ b ∈ l, charVal b = none := by
  intro l
  induction l with
  | nil => simp [foldDigits]
  | cons b rest ih =>
    intro mul sum
    simp only [foldDigits]
    cases hc : charVal b with
    | none =>
      exact iff_of_true rfl ⟨b, List.mem_cons_self b rest, hc⟩
    | some u =>
      simp only [ih, List.mem_cons]
      constructor
      · rintro ⟨x, hx, hcx⟩; exact ⟨x, Or.inr hx, hcx⟩
      · rintro ⟨x, hx | hx, hcx⟩
        · rw [hx] at hcx; rw [hc] at hcx; cases hcx
        · exact ⟨x, hx, hcx⟩

lemma foldDigitsE_spec :
    ∀ (l : List Nat) (mul sum : Nat), (∀ b ∈ l, (charVal b).isSome) →
      foldDigitsE l mul sum = some (sum + mul * Nat.ofDigits 37 (l.map dval)) := by
  intro l
  induction l with
  | nil => intro mul sum _; simp [foldDigitsE]
  | cons b rest ih =>
    intro mul sum h
    have hb := charVal_isSome_elim (h b (List.mem_cons_self b rest))
    simp only [foldDigitsE, hb]
    rw [ih _ _ (fun x hx => h x (List.mem_cons_of_mem b hx))]
    simp only [List.map_cons, Nat.ofDigits_cons, Option.some.injEq]
    ring

lemma foldDigits_eq_foldDigitsE :
    ∀ (l : List Nat) (mul sum : Nat), sum < mul → mul * 37 ^ l.length < U128MOD →
      foldDigits l mul sum = foldDigitsE l mul sum := by
  intro l
  induction l with
  | nil => intros; rfl
  | cons b rest ih =>
    intro mul sum hsm hbound
    simp only [foldDigits, foldDigitsE]
    cases hc : charVal b with
    | none => rfl
    | some u =>
      have hu : u < 37 := charVal_lt_37 hc
      have hmul : mul * 37 ≤ mul * 37 ^ (rest.length + 1) :=
        Nat.mul_le_mul_left mul (Nat.le_self_pow (Nat.succ_ne_zero _) 37)
      have hlen : mul * 37 ^ (rest.length + 1) < U128MOD := by
        simpa [List.length_cons] using hbound
      have hsum : sum + u * mul < mul * 37 := by nlinarith
      dsimp only
      rw [Nat.mod_eq_of_lt (lt_of_le_of_lt hmul hlen),
        Nat.mod_eq_of_lt (lt_of_lt_of_le hsum (le_trans hmul (le_of_lt hlen)))]
      apply ih
      · exact hsum
      · calc mul * 37 * 37 ^ rest.length = mul * 37 ^ (rest.length + 1) := by ring
          _ < U128MOD := hlen
lemma pow37_24_lt : 37 ^ 24 < U128MOD := by norm_num [U128MOD]

/-- On a valid input, `Name::encode` succeeds and the packed value is the
base-37 number of the digit list, least-significant digit first (i.e. the
reversed byte order). -/
lemma encode_eq_ok {s : List Nat} (h : validName s) :
    Name.encode s = .ok (Nat.ofDigits 37 (s.reverse.map dval)) := by
  obtain ⟨hne, hlen, hhead, hall⟩ := h
  have hall' : ∀ b ∈ s.reverse, (charVal b).isSome := by
    intro b hb; exact hall b (List.mem_reverse.mp hb)
  unfold Name.encode
  rw [if_neg (by simp [hne]), if_neg (by omega), if_neg hhead,
    foldDigits_eq_foldDigitsE _ _ _ Nat.zero_lt_one
      (by
        rw [one_mul, List.length_reverse]
        calc 37 ^ s.length ≤ 37 ^ 24 := Nat.pow_le_pow_right (by norm_num) hlen
          _ < U128MOD := pow37_24_lt),
    foldDigitsE_spec _ _ _ hall']
  simp

lemma head_of_valid {s : List Nat} (h : validName s) :
    ∃ b, s.head? = some b ∧ b ≠ 95 ∧ (charVal b).isSome := by
  obtain ⟨hne, _, hhead, hall⟩ := h
  cases s with
  | nil => exact absurd rfl hne
  | cons b t =>
    refine ⟨b, rfl, ?_, hall b (List.mem_cons_self b t)⟩
    intro hb; exact hhead (by simp [hb])

/-- The base-37 digits of the packed value of a valid input are exactly the
digit values of its bytes, least-significant first. -/
lemma digits_encode {s : List Nat} (h : validName s) :
    Nat.digits 37 (Nat.ofDigits 37 (s.reverse.map dval)) = s.reverse.map dval := by
  apply Nat.digits_ofDigits 37 (by norm_num)
  · intro u hu
    obtain ⟨b, hb, rfl⟩ := List.mem_map.mp hu
    exact dval_lt_37 (h.2.2.2 b (List.mem_reverse.mp hb))
  · intro hne hlast
    obtain ⟨b, hb, hb95, hbs⟩ := head_of_valid h
    have : (s.reverse.map dval).getLast? = some (dval b) := by
      rw [List.getLast?_map, List.getLast?_reverse, hb]; rfl
    rw [List.getLast?_eq_getLast _ hne, hlast] at this
    exact dval_ne_zero hbs hb95 (Option.some.inj this).symm

lemma ilog37Aux_eq_log : ∀ fuel n, n ≤ fuel → ilog37Aux fuel n = Nat.log 37 n := by
  intro fuel
  induction fuel with
  | zero =>
    intro n hn
    interval_cases n
    simp [ilog37Aux]
  | succ fuel ih =>
    intro n hn
    simp only [ilog37Aux]
    split_ifs with hlt
    · exact (Nat.log_of_lt hlt).symm
    · push_neg at hlt
      have hdiv : n / 37 ≤ fuel := by
        have : n / 37 < n := Nat.div_lt_self (by omega) (by norm_num)
        omega
      rw [ih _ hdiv, Nat.log_div_base]
      have := Nat.log_pos (b := 37) (by norm_num) hlt
      omega

lemma ilog37_eq_log (n : Nat) : ilog37 n = Nat.log 37 n :=
  ilog37Aux_eq_log n n le_rfl

lemma name_len_eq (n : Nat) : Name.len n = Nat.log 37 n + 1 := by
  rw [Name.len, ilog37_eq_log]

lemma drop_set_cons :
    ∀ (l : List Nat) (i : Nat) (a : Nat), i < l.length →
      (l.set i a).drop i = a :: l.drop (i + 1) := by
  intro l
  induction l with
  | nil => intro i a h; simp at h
  | cons x xs ih =>
    intro i a h
    cases i with
    | zero => rfl
    | succ j =>
      simp only [List.set_cons_succ, List.drop_succ_cons]
      exact ih j a (by simpa using h)

/-- Full characterization of the decode loop: starting at cursor `idx` with
a value whose base-37 digit list fits in `idx + 1` cells, it terminates
normally, leaves the cursor just below the written region, and the buffer
from the final cursor on holds the digits' bytes most-significant first,
followed by the untouched tail of the buffer. -/
lemma decodeLoop_spec :
    ∀ (idx : Nat) (buf : List Nat) (num : Nat), 0 < num →
      (Nat.digits 37 num).length ≤ idx + 1 → idx < buf.length →
      ∃ buf2,
        decodeLoop buf num idx = some (buf2, idx + 1 - (Nat.digits 37 num).length) ∧
        buf2.length = buf.length ∧
        buf2.drop (idx + 1 - (Nat.digits 37 num).length)
          = ((Nat.digits 37 num).map digitByte).reverse ++ buf.drop (idx + 1) := by
  intro idx
  induction idx with
  | zero =>
    intro buf num hpos hdlen hblen
    have hne : Nat.digits 37 num ≠ [] := Nat.digits_ne_nil_iff_ne_zero.mpr (by omega)
    have hd1 : (Nat.digits 37 num).length = 1 := by
      cases hl : (Nat.digits 37 num).length with
      | zero => exact absurd (List.length_eq_zero.mp hl) hne
      | succ k => rw [hl] at hdlen; omega
    have hnum37 : num < 37 := by
      by_contra hge
      push_neg at hge
      rw [Nat.digits_def' (by norm_num : (1:Nat) < 37) hpos] at hd1
      have hnil : Nat.digits 37 (num / 37) = [] := by
        simpa using List.length_eq_zero.mp (by simpa using hd1)
      have : num / 37 = 0 := by
        by_contra h0
        exact Nat.digits_ne_nil_iff_ne_zero.mpr h0 hnil
      omega
    have hdig : Nat.digits 37 num = [num] := Nat.digits_of_lt 37 num (by omega) hnum37
    have hmod : num % 37 = num := Nat.mod_eq_of_lt hnum37
    obtain ⟨c, hc⟩ := Option.isSome_iff_exists.mp (digitChar_isSome (d := num % 37) (by omega))
    rw [hmod] at hc
    refine ⟨buf.set 0 c, ?_, by simp, ?_⟩
    · simp [decodeLoop, hmod, hc, hd1]
    · rw [hd1, hdig]
      simp only [Nat.sub_self, List.map_cons, List.map_nil, List.reverse_cons,
        List.reverse_nil, List.nil_append, List.singleton_append]
      rw [drop_set_cons buf 0 c hblen]
      simp [digitByte, hc]
  | succ idx ih =>
    intro buf num hpos hdlen hblen
    have h37 : (1:Nat) < 37 := by norm_num
    have hdig : Nat.digits 37 num = num % 37 :: Nat.digits 37 (num / 37) :=
      Nat.digits_def' h37 hpos
    obtain ⟨c, hc⟩ := Option.isSome_iff_exists.mp
      (digitChar_isSome (d := num % 37) (Nat.mod_lt num (by norm_num)))
    have hcb : digitByte (num % 37) = c := by simp [digitByte, hc]
    by_cases hdiv : num / 37 = 0
    · have hdig0 : Nat.digits 37 num = [num % 37] := by simp [hdig, hdiv]
      refine ⟨buf.set (idx + 1) c, ?_, by simp, ?_⟩
      · simp [decodeLoop, hc, hdiv, hdig0]
      · rw [hdig0]
        simp only [List.length_cons, List.length_nil, Nat.add_sub_cancel,
          List.map_cons, List.map_nil, List.reverse_cons, List.reverse_nil,
          List.nil_append, List.singleton_append]
        rw [drop_set_cons buf (idx + 1) c hblen]
        simp [hcb]
    · have hdivpos : 0 < num / 37 := Nat.pos_of_ne_zero hdiv
      have hlen2 : (Nat.digits 37 (num / 37)).length ≤ idx + 1 := by
        rw [hdig] at hdlen; simpa using hdlen
      have hblen2 : idx < (buf.set (idx + 1) c).length := by
        simp; omega
      obtain ⟨buf2, heq, hblen3, hdrop⟩ := ih (buf.set (idx + 1) c) (num / 37) hdivpos hlen2 hblen2
      have hLpos : 0 < (Nat.digits 37 (num / 37)).length :=
        List.length_pos.mpr (Nat.digits_ne_nil_iff_ne_zero.mpr hdiv)
      refine ⟨buf2, ?_, by simpa using hblen3, ?_⟩
      · rw [show decodeLoop buf num (idx + 1) = decodeLoop (buf.set (idx + 1) c) (num / 37) idx by
          simp [decodeLoop, hc, hdiv]]
        rw [heq, hdig]
        simp only [List.length_cons, Option.some.injEq, Prod.mk.injEq]
        exact ⟨trivial, by omega⟩
      · rw [hdig]
        have hidx : idx + 1 + 1 - (num % 37 :: Nat.digits 37 (num / 37)).length
            = idx + 1 - (Nat.digits 37 (num / 37)).length := by
          simp only [List.length_cons]; omega
        rw [hidx, hdrop]
        rw [drop_set_cons buf (idx + 1) c hblen]
        simp [hcb]

/-- Characterization of `Name::decode` over the reachable range of packed
values: it succeeds, the cursor lands at `24 - L` where `L` is the number
of base-37 digits, and the exposed slice holds the digits' bytes
most-significant first. -/
lemma decode_spec {n : Nat} (hpos : 0 < n) (hlt : n < 37 ^ 24) :
    ∃ d : DecodedName,
      Name.decode n = some d ∧
      d.buf.length = 24 ∧
      d.idx = 24 - (Nat.digits 37 n).length ∧
      d.as_slice = ((Nat.digits 37 n).map digitByte).reverse := by
  have hL : (Nat.digits 37 n).length ≤ 24 := by
    rw [Nat.digits_len 37 n (by norm_num) (by omega)]
    have := Nat.log_lt_of_lt_pow (b := 37) (x := 24) (by omega) hlt
    omega
  obtain ⟨buf2, heq, hlen, hdrop⟩ :=
    decodeLoop_spec 23 (List.replicate 24 0) n hpos (by omega) (by simp)
  refine ⟨⟨buf2, 24 - (Nat.digits 37 n).length⟩, ?_, by simpa using hlen, rfl, ?_⟩
  · show Name.decode n = _
    unfold Name.decode
    rw [show Name.MAXLEN - 1 = 23 from rfl, show List.replicate Name.MAXLEN 0
      = List.replicate 24 0 from rfl, heq]
  · show buf2.drop _ = _
    rw [show (24:Nat) - (Nat.digits 37 n).length = 23 + 1 - (Nat.digits 37 n).length
      from rfl, hdrop]
    simp

lemma encode_value_pos {s : List Nat} (h : validName s) :
    0 < Nat.ofDigits 37 (s.reverse.map dval) := by
  have hne : s.reverse.map dval ≠ [] := by
    simp only [ne_eq, List.map_eq_nil_iff, List.reverse_eq_nil_iff]
    exact h.1
  have := Nat.digits_ne_nil_iff_ne_zero.mp (by rw [digits_encode h]; exact hne)
  omega

lemma encode_value_lt {s : List Nat} (h : validName s) :
    Nat.ofDigits 37 (s.reverse.map dval) < 37 ^ 24 := by
  calc Nat.ofDigits 37 (s.reverse.map dval)
      < 37 ^ (s.reverse.map dval).length :=
        Nat.ofDigits_lt_base_pow_length (by norm_num)
          (fun u hu => by
            obtain ⟨b, hb, rfl⟩ := List.mem_map.mp hu
            exact dval_lt_37 (h.2.2.2 b (List.mem_reverse.mp hb)))
    _ ≤ 37 ^ 24 := by
        apply Nat.pow_le_pow_right (by norm_num)
        simpa using h.2.1

lemma digits_length_encode {s : List Nat} (h : validName s) :
    (Nat.digits 37 (Nat.ofDigits 37 (s.reverse.map dval))).length = s.length := by
  rw [digits_encode h]; simp

lemma decoded_bytes_encode {s : List Nat} (h : validName s) :
    ((Nat.digits 37 (Nat.ofDigits 37 (s.reverse.map dval))).map digitByte).reverse = s := by
  rw [digits_encode h, List.map_map]
  rw [List.map_congr_left (g := id) (fun b hb => by
    simpa using digitByte_dval (h.2.2.2 b (List.mem_reverse.mp hb)))]
  simp

/-- Combined encode/decode characterization for a valid input. -/
lemma encode_decode {s : List Nat} (h : validName s) :
    ∃ n d,
      Name.encode s = .ok n ∧ 0 < n ∧ n < 37 ^ 24 ∧
      Name.decode n = some d ∧ d.buf.length = 24 ∧ d.idx = 24 - s.length ∧
      d.as_slice = s := by
  refine ⟨Nat.ofDigits 37 (s.reverse.map dval), ?_⟩
  obtain ⟨d, hd, hbuf, hidx, hslice⟩ :=
    decode_spec (encode_value_pos h) (encode_value_lt h)
  refine ⟨d, encode_eq_ok h, encode_value_pos h, encode_value_lt h, hd, hbuf, ?_, ?_⟩
  · rw [hidx, digits_length_encode h]
  · rw [hslice, decoded_bytes_encode h]

lemma name_len_encode {s : List Nat} (h : validName s) :
    Name.len (Nat.ofDigits 37 (s.reverse.map dval)) = s.length := by
  rw [name_len_eq, ← Nat.digits_len 37 _ (by norm_num)
    (by have := encode_value_pos h; omega), digits_length_encode h]

lemma map_dval_inj :
    ∀ (l1 l2 : List Nat), (∀ b ∈ l1, (charVal b).isSome) →
      (∀ b ∈ l2, (charVal b).isSome) → l1.map dval = l2.map dval → l1 = l2 := by
  intro l1
  induction l1 with
  | nil =>
    intro l2 _ _ h
    cases l2 with
    | nil => rfl
    | cons b t => simp at h
  | cons a t ih =>
    intro l2 h1 h2 h
    cases l2 with
    | nil => simp at h
    | cons b t2 =>
      simp only [List.map_cons, List.cons.injEq] at h
      have ha := charVal_isSome_elim (h1 a (List.mem_cons_self a t))
      have hb := charVal_isSome_elim (h2 b (List.mem_cons_self b t2))
      rw [h.1] at ha
      have hab : a = b := charVal_inj ha hb
      rw [hab, ih t2 (fun x hx => h1 x (List.mem_cons_of_mem a hx))
        (fun x hx => h2 x (List.mem_cons_of_mem b hx)) h.2]

/-- C1: for every byte sequence `s` satisfying the naming invariants
(length 1–24, bytes in the 37-symbol alphabet, no leading underscore),
`Name::encode` returns `Ok` of some name `n`, and `decode(n).as_slice()`
equals `s` exactly — same bytes, same length. -/
theorem c1_encode_decode_roundtrip (s : List Nat) (h : validName s) :
    ∃ n d, Name.encode s = .ok n ∧ Name.decode n = some d ∧ d.as_slice = s := by
  obtain ⟨n, d, he, _, _, hd, _, _, hs⟩ := encode_decode h
  exact ⟨n, d, he, hd, hs⟩

theorem c1_witness :
    validName [104, 101, 108, 108, 111] ∧
    ∃ n d, Name.encode [104, 101, 108, 108, 111] = .ok n ∧
      Name.decode n = some d ∧ d.as_slice = [104, 101, 108, 108, 111] :=
  ⟨by decide, c1_encode_decode_roundtrip [104, 101, 108, 108, 111] (by decide)⟩

/-- C2: `Name::encode` validates with first-failure-wins in this exact
order: empty input → `Empty`; length over 24 → `TooLong`; leading `_` →
`LeadingUnderscore`; any byte outside the 37-symbol alphabet →
`InvalidChar` (even when other bytes are valid); otherwise `Ok`. -/
theorem c2_validation_order (s : List Nat) :
    (s = [] → Name.encode s = .error .Empty) ∧
    (s ≠ [] → Name.MAXLEN < s.length → Name.encode s = .error .TooLong) ∧
    (s ≠ [] → s.length ≤ Name.MAXLEN → s.head? = some 95 →
      Name.encode s = .error .LeadingUnderscore) ∧
    (s ≠ [] → s.length ≤ Name.MAXLEN → s.head? ≠ some 95 →
      (∃ b ∈ s, charVal b = none) → Name.encode s = .error .InvalidChar) ∧
    (s ≠ [] → s.length ≤ Name.MAXLEN → s.head? ≠ some 95 →
      (∀ b ∈ s, charVal b ≠ none) → ∃ n, Name.encode s = .ok n) := by
  refine ⟨?_, ?_, ?_, ?_, ?_⟩
  · rintro rfl; rfl
  · intro hne hlen
    unfold Name.encode
    rw [if_neg (by simp [hne]), if_pos (by omega)]
  · intro hne hlen hhead
    unfold Name.encode
    rw [if_neg (by simp [hne]), if_neg (by omega), if_pos hhead]
  · intro hne hlen hhead hex
    unfold Name.encode
    rw [if_neg (by simp [hne]), if_neg (by omega), if_neg hhead]
    have : foldDigits s.reverse 1 0 = none :=
      (foldDigits_eq_none_iff s.reverse 1 0).mpr
        (by obtain ⟨b, hb, hcb⟩ := hex; exact ⟨b, List.mem_reverse.mpr hb, hcb⟩)
    rw [this]
  · intro hne hlen hhead hall
    exact ⟨_, encode_eq_ok ⟨hne, hlen, hhead,
      fun b hb => Option.ne_none_iff_isSome.mp (hall b hb)⟩⟩

theorem c2_witness :
    Name.encode [] = .error .Empty ∧
    Name.encode (List.replicate 25 97) = .error .TooLong ∧
    Name.encode [95, 97] = .error .LeadingUnderscore ∧
    Name.encode [97, 66] = .error .InvalidChar ∧
    ∃ n, Name.encode [104, 105] = .ok n :=
  ⟨(c2_validation_order []).1 rfl,
    (c2_validation_order (List.replicate 25 97)).2.1 (by decide) (by decide),
    (c2_validation_order [95, 97]).2.2.1 (by decide) (by decide) (by decide),
    (c2_validation_order [97, 66]).2.2.2.1 (by decide) (by decide) (by decide)
      ⟨66, by decide, by decide⟩,
    (c2_validation_order [104, 105]).2.2.2.2 (by decide) (by decide) (by decide)
      (by decide)⟩

/-- C3: `Name::encode` is injective on valid inputs: two different valid
byte sequences always pack to distinct integer values. -/
theorem c3_encode_injective (s1 s2 : List Nat) (h1 : validName s1)
    (h2 : validName s2) (hne : s1 ≠ s2) (n1 n2 : Nat)
    (e1 : Name.encode s1 = .ok n1) (e2 : Name.encode s2 = .ok n2) : n1 ≠ n2 := by
  have hv1 : n1 = Nat.ofDigits 37 (s1.reverse.map dval) := by
    have := e1.symm.trans (encode_eq_ok h1)
    simpa using this
  have hv2 : n2 = Nat.ofDigits 37 (s2.reverse.map dval) := by
    have := e2.symm.trans (encode_eq_ok h2)
    simpa using this
  intro heq
  apply hne
  have hd : s1.reverse.map dval = s2.reverse.map dval := by
    rw [← digits_encode h1, ← digits_encode h2, ← hv1, ← hv2, heq]
  have := map_dval_inj s1.reverse s2.reverse
    (fun b hb => h1.2.2.2 b (List.mem_reverse.mp hb))
    (fun b hb => h2.2.2.2 b (List.mem_reverse.mp hb)) hd
  exact List.reverse_inj.mp this

theorem c3_witness : ([97] : List Nat) ≠ [98] ∧ (1 : Nat) ≠ 2 :=
  ⟨by decide, c3_encode_injective [97] [98] (by decide) (by decide)
    (by decide) 1 2 rfl rfl⟩

/-- C4: for a valid `L`-character input, `Name::len` of the packed name is
`L`, it equals `⌊log₃₇ value⌋ + 1`, and the packed value lies in
`[37^(L-1), 37^L - 1]`. -/
theorem c4_name_len (s : List Nat) (h : validName s) (n : Nat)
    (e : Name.encode s = .ok n) :
    Name.len n = s.length ∧ Name.len n = Nat.log 37 n + 1 ∧
    37 ^ (s.length - 1) ≤ n ∧ n ≤ 37 ^ s.length - 1 := by
  have hv : n = Nat.ofDigits 37 (s.reverse.map dval) := by
    have := e.symm.trans (encode_eq_ok h)
    simpa using this
  have hpos : 0 < n := hv ▸ encode_value_pos h
  have hlog : Nat.log 37 n + 1 = s.length := by
    rw [← Nat.digits_len 37 n (by norm_num) (by omega), hv, digits_length_encode h]
  have hslen : 1 ≤ s.length := List.length_pos.mpr h.1
  refine ⟨?_, name_len_eq n, ?_, ?_⟩
  · rw [name_len_eq, hlog]
  · have := Nat.pow_log_le_self 37 (show n ≠ 0 by omega)
    have hexp : Nat.log 37 n = s.length - 1 := by omega
    rwa [hexp] at this
  · apply Nat.le_sub_one_of_lt
    have := Nat.lt_pow_succ_log_self (show (1:Nat) < 37 by norm_num) n
    rwa [Nat.succ_eq_add_one, hlog] at this

theorem c4_witness :
    validName [104, 101, 108, 108, 111] ∧
    (Name.len 15263440 = 5 ∧ Name.len 15263440 = Nat.log 37 15263440 + 1 ∧
      37 ^ 4 ≤ 15263440 ∧ 15263440 ≤ 37 ^ 5 - 1) :=
  ⟨by decide, c4_name_len [104, 101, 108, 108, 111] (by decide) 15263440 rfl⟩

/-- C5: on every input passing validation, the final accumulator is
strictly positive, so the `NonZeroU128` construction at the end of
`Name::encode` is sound and no reachable name has packed value zero. -/
theorem c5_encode_positive (s : List Nat) (h : validName s) :
    ∃ n, Name.encode s = .ok n ∧ 0 < n :=
  ⟨Nat.ofDigits 37 (s.reverse.map dval), encode_eq_ok h, encode_value_pos h⟩

theorem c5_witness :
    validName [97, 95] ∧ ∃ n, Name.encode [97, 95] = .ok n ∧ 0 < n :=
  ⟨by decide, c5_encode_positive [97, 95] (by decide)⟩

/-- C6: `Name::decode` is total over every name produced by `Name::encode`
(the loop terminates and the `unreachable!` arm — modelled as `none` — is
never taken), the final cursor stays strictly inside the 24-byte buffer,
and every decoded byte is in the 37-symbol alphabet, hence ASCII
(< 128), so the text view `as_str` is the well-formed character-by-
character reading of the slice. -/
theorem c6_decode_total (s : List Nat) (h : validName s) (n : Nat)
    (e : Name.encode s = .ok n) :
    ∃ d, Name.decode n = some d ∧ d.idx < Name.MAXLEN ∧
      d.buf.length = Name.MAXLEN ∧
      (∀ b ∈ d.as_slice, (charVal b).isSome ∧ b < 128) ∧
      d.as_str.data = d.as_slice.map Char.ofNat := by
  obtain ⟨n', d, he, _, _, hd, hbuf, hidx, hs⟩ := encode_decode h
  have hn : n = n' := by
    have := e.symm.trans he
    simpa using this
  subst hn
  refine ⟨d, hd, ?_, hbuf, ?_, rfl⟩
  · have : 1 ≤ s.length := List.length_pos.mpr h.1
    rw [hidx]
    show 24 - s.length < 24
    omega
  · intro b hb
    rw [hs] at hb
    have := h.2.2.2 b hb
    exact ⟨this, charVal_lt_128 this⟩

theorem c6_witness :
    validName [104, 105] ∧
    ∃ d, Name.decode 305 = some d ∧ d.idx < Name.MAXLEN ∧
      d.buf.length = Name.MAXLEN ∧
      (∀ b ∈ d.as_slice, (charVal b).isSome ∧ b < 128) ∧
      d.as_str.data = d.as_slice.map Char.ofNat :=
  ⟨by decide, c6_decode_total [104, 105] (by decide) 305 rfl⟩

/-- C7: for every character whose code point fits in one byte,
`Name::encode_char` returns exactly what `Name::encode` returns on the
one-byte slice; for every character with a multi-byte code point it
returns `InvalidChar`; and for every out-of-alphabet character it returns
`InvalidChar`. -/
theorem c7_encode_char (c : Nat) (hc : c < 1114112) :
    (c < 256 → Name.encode_char c = Name.encode [c]) ∧
    (256 ≤ c → Name.encode_char c = .error .InvalidChar) ∧
    (charVal c = none → Name.encode_char c = .error .InvalidChar) := by
  refine ⟨?_, ?_, ?_⟩
  · intro h256
    unfold Name.encode_char
    rw [if_pos (by omega), Nat.mod_eq_of_lt h256]
  · intro h256
    unfold Name.encode_char
    rw [if_neg (by omega)]
  · intro hnone
    by_cases h256 : c < 256
    · unfold Name.encode_char
      rw [if_pos (by omega), Nat.mod_eq_of_lt h256]
      have h95 : c ≠ 95 := by
        intro hc95
        rw [hc95] at hnone
        simp [charVal] at hnone
      unfold Name.encode
      rw [if_neg (by simp), if_neg (by simp [Name.MAXLEN]), if_neg (by simp [h95])]
      have : foldDigits [c].reverse 1 0 = none :=
        (foldDigits_eq_none_iff [c].reverse 1 0).mpr ⟨c, by simp, hnone⟩
      rw [this]
    · unfold Name.encode_char
      rw [if_neg (by omega)]

theorem c7_witness :
    Name.encode_char 97 = Name.encode [97] ∧
    Name.encode_char 1102 = Except.error NError.InvalidChar ∧
    Name.encode_char 65 = Except.error NError.InvalidChar :=
  ⟨(c7_encode_char 97 (by decide)).1 (by decide),
    (c7_encode_char 1102 (by decide)).2.1 (by decide),
    (c7_encode_char 65 (by decide)).2.2 (by decide)⟩

/-- C8: writing a valid name through the binary codec emits one length
byte followed by exactly that many identifier bytes (the wire form is
`length :: bytes`), reading it back reproduces the name and leaves the
rest of the input untouched; and a declared length byte over 24 is
rejected with the `TooLong` message without consuming any payload byte
(the payload may even be absent). -/
theorem c8_bincode (s extra payload : List Nat) (L n : Nat) (h : validName s)
    (e : Name.encode s = .ok n) (hL : Name.MAXLEN < L) :
    (∃ out, bincodeEncodeName n = some out ∧ out = s.length :: s ∧
      bincodeDecodeName (out ++ extra) = .ok (n, extra)) ∧
    bincodeDecodeName (L :: payload) = .error NError.TooLong.as_str := by
  constructor
  · obtain ⟨n', d, he, _, _, hd, _, _, hs⟩ := encode_decode h
    have hn : n = n' := by
      have := e.symm.trans he
      simpa using this
    subst hn
    have hv : n = Nat.ofDigits 37 (s.reverse.map dval) := by
      have := e.symm.trans (encode_eq_ok h)
      simpa using this
    have hlen : Name.len n = s.length := by rw [hv]; exact name_len_encode h
    have hs24 : s.length ≤ 24 := h.2.1
    refine ⟨s.length :: s, ?_, rfl, ?_⟩
    · unfold bincodeEncodeName
      rw [hd]
      dsimp only
      rw [hlen, Nat.mod_eq_of_lt (by omega), hs]
    · show bincodeDecodeName (s.length :: (s ++ extra)) = _
      unfold bincodeDecodeName
      dsimp only
      rw [if_neg (by simp only [Name.MAXLEN]; omega),
        if_neg (by simp only [List.length_append]; omega),
        List.take_left, List.drop_left, e]
  · unfold bincodeDecodeName
    dsimp only
    rw [if_pos hL]

theorem c8_witness :
    validName [104, 105] ∧ Name.MAXLEN < 25 ∧
    ((∃ out, bincodeEncodeName 305 = some out ∧ out = [2, 104, 105] ∧
      bincodeDecodeName (out ++ [7]) = .ok (305, [7])) ∧
    bincodeDecodeName [25] = .error NError.TooLong.as_str) :=
  ⟨by decide, by decide,
    c8_bincode [104, 105] [7] [] 25 305 (by decide) rfl (by decide)⟩

/-- C10: on any input of length at most 24 whose bytes are all in the
alphabet, the `u128` accumulation in `Name::encode` is exact: the fold
with wrap-around modulo `2^128` coincides with the ideal unbounded fold,
the resulting accumulator is below `37^24`, and `37^24 < 2^128`. -/
theorem c10_no_overflow (s : List Nat) (h1 : s.length ≤ Name.MAXLEN)
    (h2 : ∀ b ∈ s, (charVal b).isSome) :
    foldDigits s.reverse 1 0 = foldDigitsE s.reverse 1 0 ∧
    (∀ m, foldDigitsE s.reverse 1 0 = some m → m < 37 ^ 24) ∧
    37 ^ 24 < 2 ^ 128 := by
  have hall' : ∀ b ∈ s.reverse, (charVal b).isSome :=
    fun b hb => h2 b (List.mem_reverse.mp hb)
  refine ⟨?_, ?_, by norm_num⟩
  · apply foldDigits_eq_foldDigitsE _ _ _ Nat.zero_lt_one
    rw [one_mul, List.length_reverse]
    calc 37 ^ s.length ≤ 37 ^ 24 := Nat.pow_le_pow_right (by norm_num) h1
      _ < U128MOD := pow37_24_lt
  · intro m hm
    rw [foldDigitsE_spec _ _ _ hall'] at hm
    have hm' : m = Nat.ofDigits 37 (s.reverse.map dval) := by simpa using hm.symm
    rw [hm']
    calc Nat.ofDigits 37 (s.reverse.map dval)
        < 37 ^ (s.reverse.map dval).length :=
          Nat.ofDigits_lt_base_pow_length (by norm_num)
            (fun u hu => by
              obtain ⟨b, hb, rfl⟩ := List.mem_map.mp hu
              exact dval_lt_37 (hall' b hb))
      _ ≤ 37 ^ 24 := by
          apply Nat.pow_le_pow_right (by norm_num)
          simpa using h1

theorem c10_witness :
    (List.replicate 24 57 : List Nat).length ≤ Name.MAXLEN ∧
    (foldDigits (List.replicate 24 57 : List Nat).reverse 1 0
        = foldDigitsE (List.replicate 24 57 : List Nat).reverse 1 0 ∧
      (37:Nat) ^ 24 < 2 ^ 128) :=
  ⟨by decide,
    (c10_no_overflow (List.replicate 24 57) (by decide) (by decide)).1,
    (c10_no_overflow (List.replicate 24 57) (by decide) (by decide)).2.2⟩

example : Name.encode [] = .error .Empty := rfl
example : Name.encode [95, 97] = .error .LeadingUnderscore := rfl
example : Name.encode [97, 66] = .error .InvalidChar := rfl
example : (Name.decode 15263440).map (fun d => d.as_slice)
    = some [104, 101, 108, 108, 111] := rfl
example : Name.len 15263440 = 5 := rfl
example : Name.encode_char 97 = .ok 1 := rfl
example : bincodeEncodeName 15263440
    = some [5, 104, 101, 108, 108, 111] := rfl
example : bincodeDecodeName [5, 104, 101, 108, 108, 111]
    = .ok (15263440, []) := rfl
example : bincodeDecodeName [25] = .error NError.TooLong.as_str := rfl
